import Mathlib

/-!
Verification of the Solar-system N-body simulation (MPI benchmark,
MPI implementation, and default single-process implementation).

The Python sources are shallowly embedded over exact rationals:
* 3-vectors are `Fin 3 → ℚ`, body arrays are `Fin n → ℚ` / `Fin n → Vec3`.
* The scalar kernel `d2 ↦ 1 / d2 ** 1.5` (from `np.power(d2, 1.5)`) and the
  square root `d2 ↦ sqrt d2` (from vpython `mag`) are irrational on ℚ, so they
  are carried as explicit function parameters `kern` / `sq`; every positive
  theorem below is proved for an arbitrary kernel, hence holds in particular
  for the real one.  The `dist2 > 0` mask and the error behaviour of the
  unguarded division are embedded explicitly.
* Fallible code (the default implementation's force loop, which raises
  `ZeroDivisionError` on coincident bodies) returns `Option`.
-/

namespace SolarMPI

/-- 3-vectors of rationals: one row of the `(N,3)` numpy arrays. -/
abbrev Vec3 := Fin 3 → ℚ

/-- `np.einsum("ij,ij->i", d, d)` for one row: the dot product. -/
def dot (u v : Vec3) : ℚ := ∑ k, u k * v k

/-- Gravitational constant `G = 6.67430e-11` (all three sources). -/
def G : ℚ := 6.6743e-11

/-- `DT = 120.0` of mpi-benchmark.py and `DT = 60 * 2` of mpi-implementation.py. -/
def DT_mpi : ℚ := 120

/-- `dt = 60 * 60 * 2` of default-implementation.py. -/
def dt_default : ℚ := 7200

/-- `scale = 1e9` of default-implementation.py. -/
def scale : ℚ := 1e9

/-! ## Partitioner

mpi-benchmark.py:
`counts=np.full(size,N//size,int); counts[:N%size]+=1`
mpi-implementation.py is identical with `size` spelled out. -/

/-- Row count assigned to worker `r` out of `W` workers over `N` bodies. -/
def counts (N W r : ℕ) : ℕ := N / W + if r < N % W then 1 else 0

/-- `start=np.insert(np.cumsum(counts)[:-1],0,0)`: first row of worker `r`. -/
def starts (N W r : ℕ) : ℕ := ∑ k ∈ Finset.range r, counts N W k

/-- `seg=slice(start[rank],start[rank]+counts[rank])`: the half-open index
range owned by worker `r`. -/
def seg (N W r : ℕ) : Finset ℕ :=
  Finset.Ico (starts N W r) (starts N W r + counts N W r)

/-! ## ForceEvaluator (MPI benchmark / MPI implementation)

Per row `i` of the worker's segment (identical in both MPI sources):
`d=p-p[i]; d2=einsum; mask=d2>0; inv[mask]=1/np.power(d2[mask],1.5);`
`floc[i]=np.sum(d*(G*m[i]*m*inv)[:,None],axis=0)`. -/

/-- The masked inverse-distance-cube coefficient:
`inv = 0` where `d2 ≤ 0`, `inv = kern d2` (for `kern d2 = 1/d2**1.5`) where
`d2 > 0`. -/
def invMasked (kern : ℚ → ℚ) (d2 : ℚ) : ℚ := if 0 < d2 then kern d2 else 0

/-- Contribution of body `j` to the force on body `i`:
`(p j - p i) * (G * m i * m j * inv)`. -/
def pairTerm (kern : ℚ → ℚ) {n : ℕ} (m : Fin n → ℚ) (p : Fin n → Vec3)
    (i j : Fin n) : Vec3 :=
  (G * m i * m j * invMasked kern (dot (p j - p i) (p j - p i))) • (p j - p i)

/-- `floc[i]`: the numpy row sum over all `j` (the `j = i` term is zero by the
mask). -/
def forceRow (kern : ℚ → ℚ) {n : ℕ} (m : Fin n → ℚ) (p : Fin n → Vec3)
    (i : Fin n) : Vec3 :=
  ∑ j, pairTerm kern m p i j

/-- The full force array a single worker owning every row would compute. -/
def fullForces (kern : ℚ → ℚ) {n : ℕ} (m : Fin n → ℚ) (p : Fin n → Vec3) :
    Fin n → Vec3 :=
  fun i => forceRow kern m p i

/-- The per-worker partial array `floc` of worker `r`: rows in the worker's
segment are filled, all other rows are left at `np.zeros_like`. -/
def localForces (kern : ℚ → ℚ) {n : ℕ} (W r : ℕ) (m : Fin n → ℚ)
    (p : Fin n → Vec3) : Fin n → Vec3 :=
  fun i => if i.val ∈ seg n W r then forceRow kern m p i else 0

/-- `comm.Allreduce(floc, forces, op=MPI.SUM)`: the element-wise sum of every
worker's partial array; every worker receives this same array. -/
def allReduce (kern : ℚ → ℚ) {n : ℕ} (W : ℕ) (m : Fin n → ℚ)
    (p : Fin n → Vec3) : Fin n → Vec3 :=
  fun i => ∑ r ∈ Finset.range W, localForces kern W r m p i

/-! ## Integrator state and steps (MPI sources) -/

/-- The mutable global arrays `p`/`positions`, `v`/`velocities`,
`forces` of the MPI sources. -/
structure BState (n : ℕ) where
  p : Fin n → Vec3
  v : Fin n → Vec3
  f : Fin n → Vec3

/-- One call of `step()` in mpi-benchmark.py:
`v += 0.5*(forces/m[:,None])*DT; p += v*DT;` recompute `floc` at the new
positions; `Allreduce(floc, forces); v += 0.5*(forces/m[:,None])*DT`.
The first half-kick uses the stored `forces` array (zeros before the first
step, the previous reduction's output afterwards). -/
def benchStep (kern : ℚ → ℚ) {n : ℕ} (W : ℕ) (m : Fin n → ℚ) (dt : ℚ)
    (s : BState n) : BState n :=
  let v1 := fun i => s.v i + dt • ((1 / 2 : ℚ) • ((m i)⁻¹ • s.f i))
  let p1 := fun i => s.p i + dt • v1 i
  let f1 := allReduce kern W m p1
  let v2 := fun i => v1 i + dt • ((1 / 2 : ℚ) • ((m i)⁻¹ • f1 i))
  ⟨p1, v2, f1⟩

/-- One iteration of `physics_loop()` in mpi-implementation.py: recompute and
reduce forces at the current positions, half-kick, drift, recompute and reduce
forces at the new positions, half-kick.  The incoming `forces` array is
ignored (recomputed); the first reduction re-evaluates the same positions the
previous iteration's second reduction evaluated. -/
def mpiStep (kern : ℚ → ℚ) {n : ℕ} (W : ℕ) (m : Fin n → ℚ) (dt : ℚ)
    (s : BState n) : BState n :=
  let f0 := allReduce kern W m s.p
  let v1 := fun i => s.v i + dt • ((1 / 2 : ℚ) • ((m i)⁻¹ • f0 i))
  let p1 := fun i => s.p i + dt • v1 i
  let f1 := allReduce kern W m p1
  let v2 := fun i => v1 i + dt • ((1 / 2 : ℚ) • ((m i)⁻¹ • f1 i))
  ⟨p1, v2, f1⟩

/-- Modelled from the spec (§4.3 Integrator, velocity-Verlet/kick-drift-kick):
1. half-kick `v += 0.5·a_prev·DT`, 2. drift `p += v·DT`, 3. recompute forces
at the new positions (`F`) giving `a_new`, 4. half-kick `v += 0.5·a_new·DT`.
`F` abstracts the full ForceEvaluator pass + reduction; `aPrev` is the
acceleration from the previous force evaluation.  Returns
(new positions, new velocities, new forces). -/
def kdkSpecStep {n : ℕ} (F : (Fin n → Vec3) → (Fin n → Vec3))
    (m : Fin n → ℚ) (dt : ℚ) (aPrev : Fin n → Vec3) (p v : Fin n → Vec3) :
    (Fin n → Vec3) × (Fin n → Vec3) × (Fin n → Vec3) :=
  let v1 := fun i => v i + dt • ((1 / 2 : ℚ) • aPrev i)
  let p1 := fun i => p i + dt • v1 i
  let f1 := F p1
  let v2 := fun i => v1 i + dt • ((1 / 2 : ℚ) • ((m i)⁻¹ • f1 i))
  (p1, v2, f1)

/-! ## Default implementation (default-implementation.py)

Force loop:
`r_vec = bj.pos - bi.pos; r_mag = mag(r_vec); r_hat = norm(r_vec);`
`f = G * bi.mass * bj.mass / (r_mag * scale)**2; forces[i] += f * r_hat`.
There is no zero-distance guard: if `r_vec = 0` then `(r_mag*scale)**2 = 0`
and the division raises `ZeroDivisionError` (embedded as `none`).
`sq` carries the irrational square root `d2 ↦ √d2` behind `mag`
(`r_mag = sq (dot r r)`; for the true square root `r_mag = 0 ↔ r_vec = 0`,
which is how the error case is phrased below). -/

/-- `f * r_hat` for one ordered pair `(i, j)`, `i ≠ j`, with
`r_hat = r_vec / r_mag`. -/
def defaultPairForce (sq : ℚ → ℚ) {n : ℕ} (m : Fin n → ℚ)
    (p : Fin n → Vec3) (i j : Fin n) : Vec3 :=
  (G * m i * m j / (sq (dot (p j - p i) (p j - p i)) * scale) ^ 2) •
    ((sq (dot (p j - p i) (p j - p i)))⁻¹ • (p j - p i))

/-- `forces[i]` of the default force loop (the `i == j` pair is skipped by
`continue`), assuming no pair coincides. -/
def defaultForcesTot (sq : ℚ → ℚ) {n : ℕ} (m : Fin n → ℚ)
    (p : Fin n → Vec3) : Fin n → Vec3 :=
  fun i => ∑ j ∈ Finset.univ.erase i, defaultPairForce sq m p i j

/-- The default force loop as run: raises `ZeroDivisionError` (= `none`) as
soon as some distinct pair has `r_vec = 0`, otherwise returns all rows. -/
def defaultForces (sq : ℚ → ℚ) {n : ℕ} (m : Fin n → ℚ)
    (p : Fin n → Vec3) : Option (Fin n → Vec3) :=
  if ∀ i j : Fin n, i ≠ j → p i ≠ p j then some (defaultForcesTot sq m p)
  else none

/-- One pass of the default implementation's main loop over the bodies
(no thrust): `acc = forces[i] / b.mass; b.velocity += acc * dt;`
`b.pos += b.velocity * dt / scale` — one force evaluation, a full kick with
it, then the drift (which divides by `scale`: positions are stored in scaled
units). -/
def defaultStep (sq : ℚ → ℚ) {n : ℕ} (m : Fin n → ℚ) (dt : ℚ)
    (p v : Fin n → Vec3) : Option ((Fin n → Vec3) × (Fin n → Vec3)) :=
  match defaultForces sq m p with
  | none => none
  | some f =>
    let v' := fun i => v i + dt • ((m i)⁻¹ • f i)
    let p' := fun i => p i + (dt / scale) • v' i
    some (p', v')

/-! ## Initialization of velocities -/

/-- mpi-benchmark.py / mpi-implementation.py:
`v -= np.sum(m[:,None]*v,axis=0)/m.sum()` — every body's velocity is shifted
by the centre-of-mass velocity. -/
def mpiInitV {n : ℕ} (m : Fin n → ℚ) (v : Fin n → Vec3) : Fin n → Vec3 :=
  fun i => v i - (∑ j, m j)⁻¹ • (∑ j, m j • v j)

/-- default-implementation.py:
`total_momentum = sum(b.mass * b.velocity for b in bodies[1:])`;
`bodies[0].velocity = -total_momentum / bodies[0].mass` — only body 0's
velocity is overwritten. -/
def defaultInitV {n : ℕ} (m : Fin (n + 1) → ℚ) (v : Fin (n + 1) → Vec3) :
    Fin (n + 1) → Vec3 :=
  fun i =>
    if i = 0 then (m 0)⁻¹ • (-(∑ j ∈ Finset.univ.erase 0, m j • v j))
    else v i

/-! ## ThrustController (default-implementation.py) -/

/-- One entry of `flight_plan`: `{"start_time", "duration", "acceleration"}`. -/
structure Phase where
  start_time : ℚ
  duration : ℚ
  accel : Vec3

/-- The rocket-relevant mutable state of the main loop:
`flight_index`, `time_passed`, `rocket.mass`. -/
structure RState where
  idx : ℕ
  t : ℚ
  mass : ℚ

/-- The thrust-phase dispatch of one main-loop iteration.  `time_passed`
is incremented by `dt` at the top of the loop; then, with
`phase = flight_plan[flight_index]` (if any):
if `t0 <= time_passed < t0 + dur` the phase is applied and
`rocket.mass = max(rocket.mass - burn_rate * dt, rocket.dry_mass)` with
`burn_rate = (initial_mass - dry_mass) / dur`; elif `time_passed >= t0 + dur`
the cursor advances.  Returns the new state and the index of the phase
applied this step (if any). -/
def thrustStep (plan : List Phase) (dt initM dryM : ℚ) (s : RState) :
    RState × Option ℕ :=
  let t' := s.t + dt
  match plan[s.idx]? with
  | none => (⟨s.idx, t', s.mass⟩, none)
  | some ph =>
    if ph.start_time ≤ t' ∧ t' < ph.start_time + ph.duration then
      (⟨s.idx, t', max (s.mass - (initM - dryM) / ph.duration * dt) dryM⟩,
        some s.idx)
    else if ph.start_time + ph.duration ≤ t' then
      (⟨s.idx + 1, t', s.mass⟩, none)
    else (⟨s.idx, t', s.mass⟩, none)

/-- The rocket state after `n` loop iterations, from the initial state
`flight_index = 0`, `time_passed = 0`, `rocket.mass = initial_mass`. -/
def rocketIter (plan : List Phase) (dt initM dryM : ℚ) : ℕ → RState
  | 0 => ⟨0, 0, initM⟩
  | n + 1 => (thrustStep plan dt initM dryM (rocketIter plan dt initM dryM n)).1

/-- The phase applied during iteration `n` (the step from state `n` to state
`n + 1`), if any. -/
def appliedAt (plan : List Phase) (dt initM dryM : ℚ) (n : ℕ) : Option ℕ :=
  (thrustStep plan dt initM dryM (rocketIter plan dt initM dryM n)).2

/-- `rocket.mass` after `n` loop iterations. -/
def massAt (plan : List Phase) (dt initM dryM : ℚ) (n : ℕ) : ℚ :=
  (rocketIter plan dt initM dryM n).mass

/-- Modelled from the spec (§4.4 ThrustController): while a phase is active
the mass decreases by `(initial_mass − dry_mass)/duration × DT`, floored at
`dry_mass`; with no active phase the mass is unchanged. -/
def specMassUpdate (plan : List Phase) (dt initM dryM : ℚ) (n : ℕ) : ℚ :=
  let s := rocketIter plan dt initM dryM n
  match plan[s.idx]? with
  | none => s.mass
  | some ph =>
    if ph.start_time ≤ s.t + dt ∧ s.t + dt < ph.start_time + ph.duration then
      max (s.mass - (initM - dryM) / ph.duration * dt) dryM
    else s.mass

/-- `flight_plan` of default-implementation.py. -/
def flightPlan : List Phase :=
  [⟨60 * 60 * 24, 60 * 60 * 6, ![1 / 10, -1, 0]⟩,
   ⟨60 * 60 * 72, 60 * 60 * 4, ![3 / 10000, 2 / 10000, 0]⟩]

/-- `rocket.initial_mass = 5e5`. -/
def initial_mass : ℚ := 5e5

/-- `rocket.dry_mass = 1e5`. -/
def dry_mass : ℚ := 1e5

/-! ## StateChannel (mpi-implementation.py, rank 0) -/

/-- The physics-side data from which rank 0 publishes: the live `positions`
and `velocities` arrays and the steps-per-second value it has just computed. -/
structure PhysState (n : ℕ) where
  positions : Fin n → Vec3
  velocities : Fin n → Vec3
  fps : ℚ

/-- The shared state read by the GUI thread: `gui_pos` and `gui_fps` —
nothing else is shared. -/
structure Snapshot (n : ℕ) where
  gui_pos : Fin n → Vec3
  gui_fps : ℚ

/-- What `physics_loop` publishes under the lock:
`gui_fps[0] = steps_1s / …` and `gui_pos[:] = positions`. -/
def publish {n : ℕ} (s : PhysState n) : Snapshot n :=
  ⟨s.positions, s.fps⟩

/-! ## Concrete inputs used by witnesses and counterexamples -/

/-- A concrete stand-in for the kernel `d2 ↦ 1/d2**1.5`. -/
def kC : ℚ → ℚ := fun x => 1 / x

/-- A concrete stand-in for the square root (satisfies `sqC 0 = 0`). -/
def sqC : ℚ → ℚ := fun x => x

def mC : Fin 2 → ℚ := ![1, 2]

def pC : Fin 2 → Vec3 := ![![0, 0, 0], ![1, 0, 0]]

def vC : Fin 2 → Vec3 := ![![3, 0, 0], ![0, 0, 0]]

def sC : BState 2 := ⟨pC, vC, fun _ => 0⟩

/-- Two coincident bodies (same position). -/
def pCoin : Fin 2 → Vec3 := fun _ => ![0, 0, 0]

/-! ## Partition lemmas -/

lemma starts_zero (N W : ℕ) : starts N W 0 = 0 := by
  simp [starts]

lemma starts_succ (N W r : ℕ) :
    starts N W (r + 1) = starts N W r + counts N W r := by
  simp [starts, Finset.sum_range_succ]

lemma starts_mono (N W : ℕ) {r r' : ℕ} (h : r ≤ r') :
    starts N W r ≤ starts N W r' := by
  unfold starts
  exact Finset.sum_le_sum_of_subset (Finset.range_subset.2 h)

lemma sum_counts (N W : ℕ) (hW : 1 ≤ W) :
    ∑ r ∈ Finset.range W, counts N W r = N := by
  unfold counts
  rw [Finset.sum_add_distrib, Finset.sum_const, Finset.card_range,
    smul_eq_mul]
  have hmod : N % W < W := Nat.mod_lt _ hW
  have hset : (Finset.range W).filter (fun r => r < N % W)
      = Finset.range (N % W) := by
    ext x
    simp only [Finset.mem_filter, Finset.mem_range]
    omega
  have hfil : (∑ r ∈ Finset.range W, if r < N % W then 1 else 0) = N % W := by
    rw [← Finset.sum_filter, hset, Finset.sum_const, Finset.card_range,
      smul_eq_mul, mul_one]
  rw [hfil]
  have hdm := Nat.div_add_mod N W
  omega

lemma starts_top (N W : ℕ) (hW : 1 ≤ W) : starts N W W = N :=
  sum_counts N W hW

lemma mem_seg {N W r i : ℕ} :
    i ∈ seg N W r ↔ starts N W r ≤ i ∧ i < starts N W (r + 1) := by
  rw [seg, Finset.mem_Ico, starts_succ]

/-- The segments of workers `0, …, w-1` tile the prefix `[0, starts w)`. -/
lemma biUnion_seg (N W : ℕ) (w : ℕ) :
    (Finset.range w).biUnion (fun r => seg N W r)
      = Finset.Ico 0 (starts N W w) := by
  induction w with
  | zero => simp [starts_zero]
  | succ w ih =>
    rw [Finset.range_succ, Finset.biUnion_insert, ih, starts_succ]
    rw [Finset.union_comm, seg, Finset.Ico_union_Ico_eq_Ico]
    · exact Nat.zero_le _
    · exact Nat.le_add_right _ _

lemma seg_cover (N W : ℕ) (hW : 1 ≤ W) :
    (Finset.range W).biUnion (fun r => seg N W r) = Finset.range N := by
  rw [biUnion_seg, starts_top N W hW, Finset.range_eq_Ico]

lemma seg_disjoint (N W : ℕ) {r r' : ℕ} (h : r ≠ r') :
    Disjoint (seg N W r) (seg N W r') := by
  rw [Finset.disjoint_left]
  intro i hi hi'
  rw [mem_seg] at hi hi'
  rcases Nat.lt_or_ge r r' with hlt | hge
  · have h1 : starts N W (r + 1) ≤ starts N W r' := starts_mono N W hlt
    omega
  · have hlt' : r' < r := by omega
    have h1 : starts N W (r' + 1) ≤ starts N W r := starts_mono N W hlt'
    omega

/-- Every body index below `N` lies in exactly one worker's segment. -/
lemma seg_exists_unique (N W : ℕ) (hW : 1 ≤ W) {i : ℕ} (hi : i < N) :
    ∃ r, r < W ∧ i ∈ seg N W r ∧ ∀ r', r' < W → i ∈ seg N W r' → r' = r := by
  have hcov : i ∈ (Finset.range W).biUnion (fun r => seg N W r) := by
    rw [seg_cover N W hW]
    exact Finset.mem_range.2 hi
  rcases Finset.mem_biUnion.1 hcov with ⟨r, hr, hmem⟩
  refine ⟨r, Finset.mem_range.1 hr, hmem, ?_⟩
  intro r' _ hmem'
  by_contra hne
  exact (Finset.disjoint_left.1 (seg_disjoint N W hne)) hmem' hmem

/-- The global sum reduction of the per-worker partial arrays is exactly the
full force array: each row is contributed by exactly one worker. -/
lemma allReduce_eq_fullForces (kern : ℚ → ℚ) {n : ℕ} (W : ℕ)
    (m : Fin n → ℚ) (p : Fin n → Vec3) (hW : 1 ≤ W) :
    allReduce kern W m p = fullForces kern m p := by
  funext i
  unfold allReduce localForces fullForces
  rcases seg_exists_unique n W hW i.isLt with ⟨r0, hr0, hmem, huniq⟩
  rw [Finset.sum_eq_single_of_mem r0 (Finset.mem_range.2 hr0)]
  · rw [if_pos hmem]
  · intro b hb hbne
    rw [if_neg]
    intro hmem'
    exact hbne (huniq b (Finset.mem_range.1 hb) hmem')

/-! ## Momentum lemmas -/


lemma thrustStep_t (plan : List Phase) (dt initM dryM : ℚ) (s : RState) :
    ((thrustStep plan dt initM dryM s).1).t = s.t + dt := by
  unfold thrustStep
  cases h : plan[s.idx]? with
  | none => rfl
  | some ph =>
    dsimp only
    split_ifs <;> rfl

lemma rocketIter_t (plan : List Phase) (dt initM dryM : ℚ) (n : ℕ) :
    (rocketIter plan dt initM dryM n).t = n * dt := by
  induction n with
  | zero => simp [rocketIter]
  | succ n ih =>
    rw [rocketIter, thrustStep_t, ih]
    push_cast
    ring

lemma thrustStep_idx (plan : List Phase) (dt initM dryM : ℚ) (s : RState) :
    s.idx ≤ ((thrustStep plan dt initM dryM s).1).idx := by
  unfold thrustStep
  cases h : plan[s.idx]? with
  | none => exact le_refl _
  | some ph =>
    dsimp only
    split_ifs <;> simp

lemma rocketIter_idx_mono (plan : List Phase) (dt initM dryM : ℚ)
    {n n' : ℕ} (h : n ≤ n') :
    (rocketIter plan dt initM dryM n).idx ≤ (rocketIter plan dt initM dryM n').idx := by
  induction n' with
  | zero => simp_all
  | succ n' ih =>
    rcases Nat.lt_or_ge n (n' + 1) with hlt | hge
    · have h1 : (rocketIter plan dt initM dryM n).idx
          ≤ (rocketIter plan dt initM dryM n').idx := ih (Nat.lt_succ_iff.1 hlt)
      exact le_trans h1 (by rw [rocketIter]; exact thrustStep_idx plan dt initM dryM _)
    · have : n = n' + 1 := le_antisymm h hge
      rw [this]

/-- If a phase is applied during iteration `n`, it is the phase at the cursor,
and the incremented time is still strictly before the phase's end. -/
lemma appliedAt_spec (plan : List Phase) (dt initM dryM : ℚ) {n : ℕ} {k : ℕ}
    (h : appliedAt plan dt initM dryM n = some k) :
    k = (rocketIter plan dt initM dryM n).idx ∧
    ∃ ph, plan[k]? = some ph ∧
      ph.start_time ≤ (rocketIter plan dt initM dryM n).t + dt ∧
      (rocketIter plan dt initM dryM n).t + dt < ph.start_time + ph.duration := by
  unfold appliedAt thrustStep at h
  cases hget : plan[(rocketIter plan dt initM dryM n).idx]? with
  | none => rw [hget] at h; simp at h
  | some ph =>
    rw [hget] at h
    dsimp only at h
    split_ifs at h with h1 h2
    · simp only [Option.some.injEq] at h
      refine ⟨h.symm, ph, ?_, h1.1, h1.2⟩
      rw [← h]
      exact hget


lemma mem_of_getElem {α : Type} {l : List α} {i : ℕ} {a : α}
    (h : l[i]? = some a) : a ∈ l := by
  rcases List.getElem?_eq_some.1 h with ⟨hi, rfl⟩
  exact List.getElem_mem _

lemma thrustStep_mass (plan : List Phase) (dt initM dryM : ℚ) (s : RState) :
    ((thrustStep plan dt initM dryM s).1).mass =
      match plan[s.idx]? with
      | none => s.mass
      | some ph =>
        if ph.start_time ≤ s.t + dt ∧ s.t + dt < ph.start_time + ph.duration
        then max (s.mass - (initM - dryM) / ph.duration * dt) dryM
        else s.mass := by
  unfold thrustStep
  cases hget : plan[s.idx]? with
  | none => rfl
  | some ph =>
    dsimp only
    split_ifs <;> rfl

lemma massAt_succ (plan : List Phase) (dt initM dryM : ℚ) (n : ℕ) :
    massAt plan dt initM dryM (n + 1) = specMassUpdate plan dt initM dryM n := by
  rw [massAt, rocketIter, thrustStep_mass, specMassUpdate]

lemma massAt_bounds (plan : List Phase) (dt initM dryM : ℚ)
    (hdt : 0 ≤ dt) (hdm : dryM ≤ initM)
    (hdur : ∀ ph ∈ plan, 0 < ph.duration) (n : ℕ) :
    dryM ≤ massAt plan dt initM dryM n ∧ massAt plan dt initM dryM n ≤ initM := by
  induction n with
  | zero =>
    rw [massAt, rocketIter]
    exact ⟨hdm, le_refl _⟩
  | succ n ih =>
    rw [massAt, rocketIter, thrustStep_mass]
    cases hget : plan[(rocketIter plan dt initM dryM n).idx]? with
    | none => exact ih
    | some ph =>
      dsimp only
      split_ifs with hact
      · have hph : 0 < ph.duration := hdur ph (mem_of_getElem hget)
        have hrate : 0 ≤ (initM - dryM) / ph.duration * dt :=
          mul_nonneg (div_nonneg (sub_nonneg.2 hdm) hph.le) hdt
        refine ⟨le_max_right _ _, max_le ?_ hdm⟩
        have := ih.2
        rw [massAt] at this
        linarith
      · exact ih

lemma massAt_antitone (plan : List Phase) (dt initM dryM : ℚ)
    (hdt : 0 ≤ dt) (hdm : dryM ≤ initM)
    (hdur : ∀ ph ∈ plan, 0 < ph.duration) (n : ℕ) :
    massAt plan dt initM dryM (n + 1) ≤ massAt plan dt initM dryM n := by
  have hlow := (massAt_bounds plan dt initM dryM hdt hdm hdur n).1
  rw [massAt, rocketIter, thrustStep_mass]
  cases hget : plan[(rocketIter plan dt initM dryM n).idx]? with
  | none => exact le_refl _
  | some ph =>
    dsimp only
    split_ifs with hact
    · have hph : 0 < ph.duration := hdur ph (mem_of_getElem hget)
      have hrate : 0 ≤ (initM - dryM) / ph.duration * dt :=
        mul_nonneg (div_nonneg (sub_nonneg.2 hdm) hph.le) hdt
      apply max_le
      · rw [massAt]
        linarith
      · rw [massAt] at hlow
        exact hlow
    · exact le_refl _

/-- If no phase is applied during iteration `n`, the mass is unchanged. -/
lemma massAt_none (plan : List Phase) (dt initM dryM : ℚ) (n : ℕ)
    (h : appliedAt plan dt initM dryM n = none) :
    massAt plan dt initM dryM (n + 1) = massAt plan dt initM dryM n := by
  rw [massAt, rocketIter, thrustStep_mass]
  unfold appliedAt thrustStep at h
  cases hget : plan[(rocketIter plan dt initM dryM n).idx]? with
  | none => rfl
  | some ph =>
    rw [hget] at h
    dsimp only at h ⊢
    split_ifs with hact
    · rw [if_pos hact] at h
      simp at h
    · rfl

lemma pairTerm_antisymm (kern : ℚ → ℚ) {n : ℕ} (m : Fin n → ℚ)
    (p : Fin n → Vec3) (i j : Fin n) :
    pairTerm kern m p j i = -pairTerm kern m p i j := by
  unfold pairTerm
  have hdot : dot (p i - p j) (p i - p j) = dot (p j - p i) (p j - p i) := by
    unfold dot
    refine Finset.sum_congr rfl fun k _ => ?_
    simp only [Pi.sub_apply]
    ring
  have hsub : p i - p j = -(p j - p i) := by abel
  rw [hdot, hsub, smul_neg]
  have hc : G * m j * m i = G * m i * m j := by ring
  rw [hc]

lemma sum_fullForces_zero (kern : ℚ → ℚ) {n : ℕ} (m : Fin n → ℚ)
    (p : Fin n → Vec3) :
    ∑ i, fullForces kern m p i = 0 := by
  have hneg' : ∑ i, ∑ j, pairTerm kern m p i j
      = -∑ i, ∑ j, pairTerm kern m p i j := by
    calc ∑ i, ∑ j, pairTerm kern m p i j
        = ∑ j, ∑ i, pairTerm kern m p i j := Finset.sum_comm
      _ = ∑ i, ∑ j, pairTerm kern m p j i := rfl
      _ = ∑ i, ∑ j, -pairTerm kern m p i j := by
          refine Finset.sum_congr rfl fun i _ => ?_
          exact Finset.sum_congr rfl fun j _ => pairTerm_antisymm kern m p i j
      _ = -∑ i, ∑ j, pairTerm kern m p i j := by
          simp [Finset.sum_neg_distrib]
  have hzero : (2 : ℚ) • (∑ i, ∑ j, pairTerm kern m p i j) = 0 := by
    rw [two_smul]
    nth_rewrite 2 [hneg']
    exact add_neg_cancel _
  have h2 : (2 : ℚ) ≠ 0 := by norm_num
  exact (smul_eq_zero.mp hzero).resolve_left h2

/-- Both half-kicks preserve total momentum whenever the force array being
consumed sums to zero and all masses are nonzero. -/
lemma kick_preserves {n : ℕ} (m : Fin n → ℚ) (dt : ℚ) (v f : Fin n → Vec3)
    (hm : ∀ i, m i ≠ 0) (hf : ∑ i, f i = 0) :
    ∑ i, m i • (v i + dt • ((1 / 2 : ℚ) • ((m i)⁻¹ • f i)))
      = ∑ i, m i • v i := by
  have hterm : ∀ i : Fin n,
      m i • (v i + dt • ((1 / 2 : ℚ) • ((m i)⁻¹ • f i)))
        = m i • v i + (dt * (1 / 2)) • f i := by
    intro i
    rw [smul_add, smul_smul, smul_smul, smul_smul]
    have hscal : m i * dt * (1 / 2) * (m i)⁻¹ = dt * (1 / 2) := by
      field_simp [hm i]
      ring
    rw [hscal]
  rw [Finset.sum_congr rfl fun i _ => hterm i, Finset.sum_add_distrib,
    ← Finset.smul_sum, hf, smul_zero, add_zero]

/-! ## Claims -/

/-- C3: for all `N ≥ 1`, `W ≥ 1` the partitioner assigns each worker a
contiguous half-open range; block sizes are `N div W` with the first
`N mod W` blocks one element larger; the ranges are pairwise disjoint, their
union is exactly `[0, N)`, their sizes differ by at most 1 and they sum to
`N`; the partition is a deterministic pure function of `(N, W)`. -/
theorem C3_partition (N W r1 r2 : ℕ) (hW : 1 ≤ W) (h12 : r1 ≠ r2) :
    counts N W r1 = N / W + (if r1 < N % W then 1 else 0) ∧
    seg N W r1 = Finset.Ico (starts N W r1) (starts N W r1 + counts N W r1) ∧
    Disjoint (seg N W r1) (seg N W r2) ∧
    (Finset.range W).biUnion (fun r => seg N W r) = Finset.range N ∧
    counts N W r1 ≤ counts N W r2 + 1 ∧
    ∑ r ∈ Finset.range W, counts N W r = N := by
  refine ⟨rfl, rfl, seg_disjoint N W h12, seg_cover N W hW, ?_,
    sum_counts N W hW⟩
  unfold counts
  split_ifs <;> omega

/-- Witness for C3 at the shipped configuration `N = 9` with `W = 4`. -/
theorem C3_partition_witness :
    ((1 ≤ 4) ∧ (0 : ℕ) ≠ 3) ∧
    (counts 9 4 0 = 9 / 4 + (if 0 < 9 % 4 then 1 else 0) ∧
     seg 9 4 0 = Finset.Ico (starts 9 4 0) (starts 9 4 0 + counts 9 4 0) ∧
     Disjoint (seg 9 4 0) (seg 9 4 3) ∧
     (Finset.range 4).biUnion (fun r => seg 9 4 r) = Finset.range 9 ∧
     counts 9 4 0 ≤ counts 9 4 3 + 1 ∧
     ∑ r ∈ Finset.range 4, counts 9 4 r = 9) :=
  ⟨⟨by decide, by decide⟩, C3_partition 9 4 0 3 (by decide) (by decide)⟩

/-- C2: for every body state and every worker count `W ≥ 1`, the element-wise
sum over all workers of the per-worker partial force arrays (each worker
fills only its own rows, the rest stay zero) equals the full force array a
single worker owning all rows would compute — exactly, since each row is
contributed by exactly one worker.  The reduction result is a single array,
so every worker holds the identical combined forces. -/
theorem C2_reduction (kern : ℚ → ℚ) (n : ℕ) (W : ℕ) (m : Fin n → ℚ)
    (p : Fin n → Vec3) (hW : 1 ≤ W) :
    (fun i => ∑ r ∈ Finset.range W, localForces kern W r m p i)
      = fullForces kern m p :=
  allReduce_eq_fullForces kern W m p hW

/-- Witness for C2 with two bodies split across two workers. -/
theorem C2_reduction_witness :
    (1 ≤ 2) ∧
    (fun i => ∑ r ∈ Finset.range 2, localForces kC 2 r mC pC i)
      = fullForces kC mC pC :=
  ⟨by decide, C2_reduction kC 2 2 mC pC (by decide)⟩

/-- C9 (counterexample): the sources contain no `W > N` or `N = 0` check.
At the shipped `N = 9` with `W = 16` ranks, startup silently produces the
balanced partition — worker 15's range is empty and the ranges still cover
`[0, 9)` — instead of failing fast with a configuration error. -/
theorem C9_counterexample :
    counts 9 16 15 = 0 ∧ seg 9 16 15 = ∅ ∧
    (Finset.range 16).biUnion (fun r => seg 9 16 r) = Finset.range 9 :=
  ⟨by decide, by decide, seg_cover 9 16 (by decide)⟩

/-- C9 (amended): no fail-fast validation exists; whenever `W > N` the
partitioner silently yields the partition in which every worker with index
`≥ N` receives an empty range, while the ranges still sum to `N` and cover
`[0, N)` exactly. -/
theorem C9_silent (N W r : ℕ) (hW : 1 ≤ W) (hNW : N < W) (hr : N ≤ r) :
    counts N W r = 0 ∧
    (∑ r' ∈ Finset.range W, counts N W r' = N) ∧
    (Finset.range W).biUnion (fun r' => seg N W r') = Finset.range N := by
  refine ⟨?_, sum_counts N W hW, seg_cover N W hW⟩
  unfold counts
  rw [Nat.div_eq_of_lt hNW, Nat.mod_eq_of_lt hNW, if_neg (by omega)]

/-- Witness for C9 (amended) at `N = 3`, `W = 5`, worker 4. -/
theorem C9_silent_witness :
    ((1 ≤ 5) ∧ 3 < 5 ∧ 3 ≤ 4) ∧
    (counts 3 5 4 = 0 ∧
     (∑ r' ∈ Finset.range 5, counts 3 5 r' = 3) ∧
     (Finset.range 5).biUnion (fun r' => seg 3 5 r') = Finset.range 3) :=
  ⟨⟨by decide, by decide, by decide⟩,
   C9_silent 3 5 4 (by decide) (by decide) (by decide)⟩

/-- C10: with exact arithmetic and no thrust, a step preserves total
momentum: the pairwise force terms are antisymmetric, the reduced force
array sums to the zero vector, and both the benchmark step (whose stored
incoming force array sums to zero) and the physics-loop step leave
`Σ mᵢ vᵢ` unchanged. -/
theorem C10_momentum (kern : ℚ → ℚ) (n W : ℕ) (m : Fin n → ℚ) (dt : ℚ)
    (s : BState n) (i j : Fin n) (hW : 1 ≤ W) (hm : ∀ i, m i ≠ 0)
    (hf : ∑ i, s.f i = 0) :
    pairTerm kern m s.p j i = -pairTerm kern m s.p i j ∧
    (∑ i, allReduce kern W m s.p i) = 0 ∧
    (∑ i, m i • (benchStep kern W m dt s).v i) = ∑ i, m i • s.v i ∧
    (∑ i, m i • (mpiStep kern W m dt s).v i) = ∑ i, m i • s.v i := by
  have hred : ∀ q : Fin n → Vec3, (∑ i, allReduce kern W m q i) = 0 := by
    intro q
    rw [allReduce_eq_fullForces kern W m q hW]
    exact sum_fullForces_zero kern m q
  refine ⟨pairTerm_antisymm kern m s.p i j, hred s.p, ?_, ?_⟩
  · have h2 : ∑ i, m i •
        ((fun i => s.v i + dt • ((1 / 2 : ℚ) • ((m i)⁻¹ • s.f i))) i
          + dt • ((1 / 2 : ℚ) • ((m i)⁻¹ •
            allReduce kern W m
              (fun i => s.p i + dt •
                (fun i => s.v i + dt • ((1 / 2 : ℚ) • ((m i)⁻¹ • s.f i))) i) i)))
        = ∑ i, m i •
            (fun i => s.v i + dt • ((1 / 2 : ℚ) • ((m i)⁻¹ • s.f i))) i :=
      kick_preserves m dt _ _ hm (hred _)
    have h1 : ∑ i, m i •
        (fun i => s.v i + dt • ((1 / 2 : ℚ) • ((m i)⁻¹ • s.f i))) i
        = ∑ i, m i • s.v i :=
      kick_preserves m dt s.v s.f hm hf
    exact h2.trans h1
  · have h2 : ∑ i, m i •
        ((fun i => s.v i + dt • ((1 / 2 : ℚ) • ((m i)⁻¹ •
            allReduce kern W m s.p i))) i
          + dt • ((1 / 2 : ℚ) • ((m i)⁻¹ •
            allReduce kern W m
              (fun i => s.p i + dt •
                (fun i => s.v i + dt • ((1 / 2 : ℚ) • ((m i)⁻¹ •
                  allReduce kern W m s.p i))) i) i)))
        = ∑ i, m i •
            (fun i => s.v i + dt • ((1 / 2 : ℚ) • ((m i)⁻¹ •
              allReduce kern W m s.p i))) i :=
      kick_preserves m dt _ _ hm (hred _)
    have h1 : ∑ i, m i •
        (fun i => s.v i + dt • ((1 / 2 : ℚ) • ((m i)⁻¹ •
          allReduce kern W m s.p i))) i
        = ∑ i, m i • s.v i :=
      kick_preserves m dt s.v (allReduce kern W m s.p) hm (hred s.p)
    exact h2.trans h1

/-- Witness for C10 with two bodies, one worker, zero stored forces. -/
theorem C10_momentum_witness :
    ((1 ≤ 1) ∧ (∀ i, mC i ≠ 0) ∧ (∑ i, sC.f i = 0)) ∧
    (pairTerm kC mC sC.p 1 0 = -pairTerm kC mC sC.p 0 1 ∧
     (∑ i, allReduce kC 1 mC sC.p i) = 0 ∧
     (∑ i, mC i • (benchStep kC 1 mC 1 sC).v i) = ∑ i, mC i • sC.v i ∧
     (∑ i, mC i • (mpiStep kC 1 mC 1 sC).v i) = ∑ i, mC i • sC.v i) :=
  ⟨⟨by decide, by decide, by simp [sC]⟩,
   C10_momentum kC 2 1 mC 1 sC 0 1 (by decide) (by decide) (by simp [sC])⟩

/-- C1 (amended): the two MPI implementations advance by kick-drift-kick.
The benchmark's `step()` is the spec's KDK step with `a_prev` the stored
force array over mass (the previous reduction's output; zeros before the
first step) and the force recomputation the reduced force field at the new
positions.  The physics loop's iteration is the same KDK step except that
`a_prev` is a fresh force evaluation at the pre-drift positions, equal in
exact arithmetic to the previous evaluation.  (The default implementation
does not follow this ordering; see the counterexample.) -/
theorem C1_kdk (kern : ℚ → ℚ) (n W : ℕ) (m : Fin n → ℚ) (dt : ℚ)
    (s : BState n) :
    benchStep kern W m dt s =
      ⟨(kdkSpecStep (allReduce kern W m) m dt
          (fun i => (m i)⁻¹ • s.f i) s.p s.v).1,
       (kdkSpecStep (allReduce kern W m) m dt
          (fun i => (m i)⁻¹ • s.f i) s.p s.v).2.1,
       (kdkSpecStep (allReduce kern W m) m dt
          (fun i => (m i)⁻¹ • s.f i) s.p s.v).2.2⟩ ∧
    mpiStep kern W m dt s =
      ⟨(kdkSpecStep (allReduce kern W m) m dt
          (fun i => (m i)⁻¹ • allReduce kern W m s.p i) s.p s.v).1,
       (kdkSpecStep (allReduce kern W m) m dt
          (fun i => (m i)⁻¹ • allReduce kern W m s.p i) s.p s.v).2.1,
       (kdkSpecStep (allReduce kern W m) m dt
          (fun i => (m i)⁻¹ • allReduce kern W m s.p i) s.p s.v).2.2⟩ :=
  ⟨rfl, rfl⟩

/-- The default implementation's force pass succeeds on the concrete
two-body state `pC` (no coincident pair). -/
lemma defaultForces_pC :
    defaultForces sqC mC pC = some (defaultForcesTot sqC mC pC) := by
  rw [defaultForces, if_pos]
  intro i j hij
  fin_cases i <;> fin_cases j <;> revert hij <;> decide

/-- Value of the default force on body 0 in the state `pC`. -/
lemma defaultForcesTot_pC :
    defaultForcesTot sqC mC pC 0 0 = 2 * G / scale ^ 2 := by
  have he : (Finset.univ.erase (0 : Fin 2)) = {1} := by decide
  rw [defaultForcesTot]
  rw [he, Finset.sum_singleton]
  simp [defaultPairForce, dot, Fin.sum_univ_three, pC, mC, sqC]
  norm_num [G, scale]

/-- C1 (counterexample): the default implementation's loop body is not the
kick-drift-kick step: at a concrete two-body state it evaluates forces once,
applies a full kick `v += a·dt` before the drift, and drifts by
`v·dt/scale`, so its result differs from the KDK step built on its own
force evaluator. -/
theorem C1_counterexample :
    defaultStep sqC mC dt_default pC vC ≠
      some ((kdkSpecStep (defaultForcesTot sqC mC) mC dt_default
               (fun i => (mC i)⁻¹ • defaultForcesTot sqC mC pC i) pC vC).1,
            (kdkSpecStep (defaultForcesTot sqC mC) mC dt_default
               (fun i => (mC i)⁻¹ • defaultForcesTot sqC mC pC i) pC vC).2.1) := by
  intro h
  rw [defaultStep, defaultForces_pC] at h
  simp only [kdkSpecStep, Option.some.injEq, Prod.mk.injEq] at h
  have h00 := congrFun (congrFun h.1 0) 0
  simp only [Pi.smul_apply, Pi.add_apply, smul_eq_mul] at h00
  rw [defaultForcesTot_pC] at h00
  norm_num [pC, vC, mC, dt_default, scale, G] at h00

/-- C4 (amended): in the MPI implementations a coincident distinct pair
contributes exactly zero force (the `dist2 > 0` mask) and the evaluation is
total; in the default implementation the same situation has no guard and the
force loop raises `ZeroDivisionError` (embedded as `none`). -/
theorem C4_coincident (kern sq : ℚ → ℚ) (n : ℕ) (m : Fin n → ℚ)
    (p : Fin n → Vec3) (i j : Fin n) (hij : i ≠ j) (hpp : p i = p j) :
    pairTerm kern m p i j = 0 ∧ defaultForces sq m p = none := by
  constructor
  · unfold pairTerm
    have h0 : p j - p i = 0 := by rw [hpp, sub_self]
    rw [h0, smul_zero]
  · rw [defaultForces, if_neg]
    intro hall
    exact hall i j hij hpp

/-- Witness for C4 (amended) with two coincident bodies. -/
theorem C4_coincident_witness :
    (((0 : Fin 2) ≠ 1) ∧ pCoin 0 = pCoin 1) ∧
    (pairTerm kC mC pCoin 0 1 = 0 ∧ defaultForces sqC mC pCoin = none) :=
  ⟨⟨by decide, rfl⟩, C4_coincident kC sqC 2 mC pCoin 0 1 (by decide) rfl⟩

/-- C4 (counterexample): with two coincident bodies the default
implementation's force evaluation does not complete — it raises
`ZeroDivisionError` at `f = G*m_i*m_j/((r_mag*scale)**2)` (embedded as
`none`), contradicting "completes without raising any error in every
implementation". -/
theorem C4_counterexample : defaultForces sqC mC pCoin = none := by
  rw [defaultForces, if_neg]
  intro hall
  exact hall 0 1 (by decide) rfl

/-- C5 (amended): with exact arithmetic, total momentum `Σ mᵢvᵢ` is exactly
zero immediately after initialization in all three sources.  The default
implementation achieves it by overwriting only body 0's velocity (the first
body — the heaviest in the shipped configuration), leaving every other body
unchanged; the MPI sources instead subtract the centre-of-mass velocity from
every body, so bodies other than the heaviest are adjusted as well. -/
theorem C5_momentum_zero (n : ℕ) (m : Fin (n + 1) → ℚ)
    (v : Fin (n + 1) → Vec3) (i : Fin (n + 1))
    (hS : (∑ j, m j) ≠ 0) (h0 : m 0 ≠ 0) (hi : i ≠ 0) :
    (∑ j, m j • mpiInitV m v j) = 0 ∧
    (∑ j, m j • defaultInitV m v j) = 0 ∧
    defaultInitV m v i = v i := by
  refine ⟨?_, ?_, by rw [defaultInitV, if_neg hi]⟩
  · unfold mpiInitV
    simp only [smul_sub]
    rw [Finset.sum_sub_distrib, ← Finset.sum_smul, smul_smul,
      mul_inv_cancel₀ hS, one_smul, sub_self]
  · have hsplit : ∑ j, m j • defaultInitV m v j
        = m 0 • defaultInitV m v 0
          + ∑ j ∈ Finset.univ.erase 0, m j • defaultInitV m v j :=
      (Finset.add_sum_erase _ _ (Finset.mem_univ 0)).symm
    have h0v : m 0 • defaultInitV m v 0
        = -(∑ j ∈ Finset.univ.erase 0, m j • v j) := by
      rw [defaultInitV, if_pos rfl, smul_smul, mul_inv_cancel₀ h0, one_smul]
    have hrest : ∑ j ∈ Finset.univ.erase 0, m j • defaultInitV m v j
        = ∑ j ∈ Finset.univ.erase 0, m j • v j := by
      refine Finset.sum_congr rfl fun j hj => ?_
      rw [defaultInitV, if_neg (Finset.ne_of_mem_erase hj)]
    rw [hsplit, h0v, hrest, neg_add_cancel]

/-- Witness for C5 (amended) with two bodies. -/
theorem C5_momentum_zero_witness :
    (((∑ j, mC j) ≠ 0) ∧ mC 0 ≠ 0 ∧ (1 : Fin 2) ≠ 0) ∧
    ((∑ j, mC j • mpiInitV mC vC j) = 0 ∧
     (∑ j, mC j • defaultInitV mC vC j) = 0 ∧
     defaultInitV mC vC 1 = vC 1) :=
  ⟨⟨by norm_num [mC, Fin.sum_univ_two], by decide, by decide⟩,
   C5_momentum_zero 1 mC vC 1
     ((by norm_num [mC, Fin.sum_univ_two] : (∑ j : Fin 2, mC j) ≠ 0))
     (by decide) (by decide)⟩

/-- C5 (counterexample): in the MPI initialization the subtraction of the
centre-of-mass velocity changes the velocity of body 0 even though body 0 is
not the heaviest (`mC 0 < mC 1`), contradicting "only the heaviest body's
initial velocity is adjusted, while every other body keeps its configured
initial velocity". -/
theorem C5_counterexample : mC 0 < mC 1 ∧ mpiInitV mC vC 0 ≠ vC 0 := by
  constructor
  · norm_num [mC]
  · intro h
    have h0 := congrFun h 0
    simp [mpiInitV, mC, vC, Fin.sum_univ_two] at h0
    norm_num at h0

/-- C8 (amended): the snapshot published by the physics loop contains
exactly the per-body positions and the steps-per-second metric: it is a
function of those two components alone, and nothing else — in particular no
velocities and no simulation time are published. -/
theorem C8_snapshot (n : ℕ) (s s' : PhysState n)
    (hp : s.positions = s'.positions) (hf : s.fps = s'.fps) :
    publish s = publish s' ∧
    (publish s).gui_pos = s.positions ∧ (publish s).gui_fps = s.fps := by
  refine ⟨?_, rfl, rfl⟩
  unfold publish
  rw [hp, hf]

/-- Two physics states equal in positions and throughput but with different
velocities. -/
def ps1 : PhysState 1 := ⟨fun _ => ![0, 0, 0], fun _ => ![0, 0, 0], 5⟩

def ps2 : PhysState 1 := ⟨fun _ => ![0, 0, 0], fun _ => ![1, 0, 0], 5⟩

/-- Witness for C8 (amended) at the two concrete states. -/
theorem C8_snapshot_witness :
    (ps1.positions = ps2.positions ∧ ps1.fps = ps2.fps) ∧
    (publish ps1 = publish ps2 ∧
     (publish ps1).gui_pos = ps1.positions ∧
     (publish ps1).gui_fps = ps1.fps) :=
  ⟨⟨rfl, rfl⟩, C8_snapshot 1 ps1 ps2 rfl rfl⟩

/-- C8 (counterexample): two physics states that differ in their velocities
publish the very same snapshot, so a consumer read cannot contain (or
recover) the per-body velocities; the snapshot also has no simulation-time
component at all.  This contradicts "every snapshot contains all four of
positions, velocities, simulation time and throughput". -/
theorem C8_counterexample :
    publish ps1 = publish ps2 ∧ ps1.velocities ≠ ps2.velocities := by
  refine ⟨rfl, ?_⟩
  intro h
  have h0 := congrFun (congrFun h 0) 0
  simp [ps1, ps2] at h0

/-- In any iteration, either no phase is applied or the applied phase is the
one at the current cursor index. -/
lemma appliedAt_none_or (plan : List Phase) (dt initM dryM : ℚ) (n : ℕ) :
    appliedAt plan dt initM dryM n = none ∨
    appliedAt plan dt initM dryM n
      = some (rocketIter plan dt initM dryM n).idx := by
  unfold appliedAt thrustStep
  cases hget : plan[(rocketIter plan dt initM dryM n).idx]? with
  | none => left; rfl
  | some ph =>
    dsimp only
    split_ifs <;> simp

/-- C6: at most one thrust phase is applied per step — only the phase at the
current cursor index is ever considered; the cursor is monotonically
non-decreasing across steps; and a phase applied at a later step `n'` was
not yet past its end time at any earlier step `n` (equivalently: once a
phase's end time has passed, it is never applied again). -/
theorem C6_phases (plan : List Phase) (dt initM dryM : ℚ) (n n' k : ℕ)
    (hdt : 0 ≤ dt) (hnn : n ≤ n') (hk : k < plan.length)
    (happ : appliedAt plan dt initM dryM n' = some k) :
    (appliedAt plan dt initM dryM n = none ∨
       appliedAt plan dt initM dryM n
         = some (rocketIter plan dt initM dryM n).idx) ∧
    (rocketIter plan dt initM dryM n).idx
      ≤ (rocketIter plan dt initM dryM n').idx ∧
    k = (rocketIter plan dt initM dryM n').idx ∧
    (rocketIter plan dt initM dryM n).t
      < plan[k].start_time + plan[k].duration := by
  obtain ⟨hkidx, ph, hget, hlo, hhi⟩ := appliedAt_spec plan dt initM dryM happ
  refine ⟨appliedAt_none_or plan dt initM dryM n,
    rocketIter_idx_mono plan dt initM dryM hnn, hkidx, ?_⟩
  have hphp : ph = plan[k] := by
    rcases List.getElem?_eq_some.1 hget with ⟨h1, h2⟩
    exact h2.symm
  rw [hphp] at hhi
  have h1 : (rocketIter plan dt initM dryM n).t
      ≤ (rocketIter plan dt initM dryM n').t := by
    rw [rocketIter_t, rocketIter_t]
    exact mul_le_mul_of_nonneg_right (by exact_mod_cast hnn) hdt
  have h2 : (rocketIter plan dt initM dryM n').t
      ≤ (rocketIter plan dt initM dryM n').t + dt := le_add_of_nonneg_right hdt
  linarith

/-- Witness for C6 on the source `flight_plan` (`dt = 43200`; phase 0 is
applied during iteration 1). -/
theorem C6_phases_witness :
    ((0 : ℚ) ≤ 43200 ∧ 0 ≤ 1 ∧ 0 < flightPlan.length ∧
      appliedAt flightPlan 43200 initial_mass dry_mass 1 = some 0) ∧
    ((appliedAt flightPlan 43200 initial_mass dry_mass 0 = none ∨
        appliedAt flightPlan 43200 initial_mass dry_mass 0
          = some (rocketIter flightPlan 43200 initial_mass dry_mass 0).idx) ∧
     (rocketIter flightPlan 43200 initial_mass dry_mass 0).idx
       ≤ (rocketIter flightPlan 43200 initial_mass dry_mass 1).idx ∧
     0 = (rocketIter flightPlan 43200 initial_mass dry_mass 1).idx ∧
     (rocketIter flightPlan 43200 initial_mass dry_mass 0).t
       < flightPlan[0].start_time + flightPlan[0].duration) :=
  ⟨⟨by norm_num, by norm_num, by decide,
    by simp [appliedAt, rocketIter, thrustStep, flightPlan]; norm_num⟩,
   C6_phases flightPlan 43200 initial_mass dry_mass 0 1 0 (by norm_num)
     (by norm_num) (by decide)
     (by simp [appliedAt, rocketIter, thrustStep, flightPlan]; norm_num)⟩

/-- C7: while a phase is active a step updates the powered body's mass by
exactly `max (mass - (initial_mass - dry_mass)/duration * DT) dry_mass`
(and leaves it unchanged when no phase is active) — captured by
`specMassUpdate`, modelled from the spec; consequently, after every step
`dry_mass ≤ mass ≤ initial_mass` and the mass never increases. -/
theorem C7_mass (plan : List Phase) (dt initM dryM : ℚ) (n : ℕ)
    (hdt : 0 ≤ dt) (hdm : dryM ≤ initM)
    (hdur : ∀ ph ∈ plan, 0 < ph.duration) :
    dryM ≤ massAt plan dt initM dryM n ∧
    massAt plan dt initM dryM n ≤ initM ∧
    massAt plan dt initM dryM (n + 1) ≤ massAt plan dt initM dryM n ∧
    massAt plan dt initM dryM (n + 1) = specMassUpdate plan dt initM dryM n := by
  obtain ⟨h1, h2⟩ := massAt_bounds plan dt initM dryM hdt hdm hdur n
  exact ⟨h1, h2, massAt_antitone plan dt initM dryM hdt hdm hdur n,
    massAt_succ plan dt initM dryM n⟩

/-- Witness for C7 on the source `flight_plan` at an iteration in which
phase 0 is active. -/
theorem C7_mass_witness :
    ((0 : ℚ) ≤ 43200 ∧ dry_mass ≤ initial_mass ∧
      (∀ ph ∈ flightPlan, 0 < ph.duration)) ∧
    (dry_mass ≤ massAt flightPlan 43200 initial_mass dry_mass 1 ∧
     massAt flightPlan 43200 initial_mass dry_mass 1 ≤ initial_mass ∧
     massAt flightPlan 43200 initial_mass dry_mass 2
       ≤ massAt flightPlan 43200 initial_mass dry_mass 1 ∧
     massAt flightPlan 43200 initial_mass dry_mass 2
       = specMassUpdate flightPlan 43200 initial_mass dry_mass 1) :=
  ⟨⟨by norm_num, by norm_num [dry_mass, initial_mass], by
      intro ph hph
      simp [flightPlan] at hph
      rcases hph with h | h <;> rw [h] <;> norm_num⟩,
   C7_mass flightPlan 43200 initial_mass dry_mass 1 (by norm_num)
     (by norm_num [dry_mass, initial_mass])
     (by
      intro ph hph
      simp [flightPlan] at hph
      rcases hph with h | h <;> rw [h] <;> norm_num)⟩

end SolarMPI

